import Mathlib

/-
  Shallow embedding of the sonic-anemometer delay-estimation core
  (crates/computer/src: ring_buffer.rs, computer.rs, simulator.rs).

  Samples (Rust `f32`) are modelled as rationals: the claims under study are
  about the combinatorial structure of the algorithms (buffer contents,
  argmax selection, index arithmetic), which the source expresses over exact
  pointwise arithmetic.  Panicking operations (`assert!`, `expect`) are
  modelled by returning `Option`, with `none` standing for the panic.
  Randomness (`thread_rng`, `random::<f32>()`) is modelled by passing the
  drawn value as an explicit argument.
-/

abbrev Sample := ℚ

/-- `RingBuffer<T>` from ring_buffer.rs: a fixed capacity and a `VecDeque`
    modelled as a list whose head is the front (oldest element) and whose
    last element is the back (newest element). -/
structure RingBuffer (T : Type) where
  capacity : Nat
  inner : List T
deriving Repr, DecidableEq

namespace RingBuffer

/-- `RingBuffer::new`: asserts `capacity > 0` (panic modelled as `none`),
    then starts with an empty deque. -/
def new (T : Type) (capacity : Nat) : Option (RingBuffer T) :=
  if capacity > 0 then some ⟨capacity, []⟩ else none

/-- `RingBuffer::push_back`: if not yet at capacity, append and return no
    evicted element; otherwise pop the front (the `expect` panic, reachable
    only for a full buffer with empty deque, i.e. capacity 0, is `none`),
    append, and return the popped front. -/
def push_back {T : Type} (sample : T) (rb : RingBuffer T) :
    Option (Option T × RingBuffer T) :=
  if rb.inner.length < rb.capacity then
    some (none, ⟨rb.capacity, rb.inner ++ [sample]⟩)
  else
    match rb.inner with
    | [] => none
    | front_element :: rest => some (some front_element, ⟨rb.capacity, rest ++ [sample]⟩)

/-- `RingBuffer::len`. -/
def len {T : Type} (rb : RingBuffer T) : Nat := rb.inner.length

/-- `RingBuffer::is_empty`. -/
def is_empty {T : Type} (rb : RingBuffer T) : Bool := rb.inner.isEmpty

/-- `RingBuffer::is_full`. -/
def is_full {T : Type} (rb : RingBuffer T) : Bool := rb.inner.length == rb.capacity

/-- The `while self.inner.len() > self.capacity { self.inner.pop_front(); }`
    loop of `RingBuffer::set_capacity`. -/
def shrinkFront {T : Type} (capacity : Nat) (l : List T) : List T :=
  if capacity < l.length then
    match l with
    | [] => []
    | _ :: rest => shrinkFront capacity rest
  else l
termination_by l.length

/-- `RingBuffer::set_capacity`: asserts the new capacity is nonzero (panic
    modelled as `none`), sets it, then pops front elements while over it. -/
def set_capacity {T : Type} (capacity : Nat) (rb : RingBuffer T) :
    Option (RingBuffer T) :=
  if capacity > 0 then some ⟨capacity, shrinkFront capacity rb.inner⟩ else none

end RingBuffer

-- ### Computer (computer.rs)

/-- `Computer` from computer.rs: `output` is the played history,
    `input` the captured window. -/
structure Computer where
  output : RingBuffer Sample
  input : RingBuffer Sample
deriving Repr, DecidableEq

/-- `DelayResult` from computer.rs. -/
structure DelayResult where
  delay_samples : Nat
  cross_correlation : List Sample
deriving Repr, DecidableEq

namespace Computer

/-- `Computer::new`: builds the two ring buffers; either `RingBuffer::new`
    panicking (capacity 0) is modelled as `none`. -/
def new (maximum_expected_delay_samples comparison_window_width : Nat) :
    Option Computer := do
  let output ← RingBuffer.new Sample
    (maximum_expected_delay_samples + comparison_window_width)
  let input ← RingBuffer.new Sample comparison_window_width
  pure ⟨output, input⟩

/-- `Computer::output_sample`: the drawn random sample is passed in as the
    argument `sample`; it is pushed onto the played history (evicted element
    discarded) and returned to the caller. -/
def output_sample (sample : Sample) (c : Computer) : Option (Sample × Computer) :=
  (c.output.push_back sample).map (fun p => (sample, ⟨p.2, c.input⟩))

/-- `Computer::record_sample`: pushes onto the captured window. -/
def record_sample (sample : Sample) (c : Computer) : Option Computer :=
  (c.input.push_back sample).map (fun p => ⟨c.output, p.2⟩)

/-- The correlation computed for one `phase_shift_samples` value inside
    `Computer::delay`: `output.iter().skip(shift).zip(input.iter())`
    folded with `acc + output_sample * input_sample` from `0.0`. -/
def correlationAt (c : Computer) (phase_shift_samples : Nat) : Sample :=
  ((c.output.inner.drop phase_shift_samples).zip c.input.inner).foldl
    (fun acc p => acc + p.1 * p.2) 0

/-- One iteration of the argmax loop of `Computer::delay`: state is
    (`max_correlation`, `corresponding_phase_shift`), where the `f32::MIN`
    initialisation is modelled as `none` (a sentinel strictly below every
    sample value), and the update fires on strict `>`. -/
def bestStep (c : Computer) (st : Option Sample × Nat)
    (phase_shift_samples : Nat) : Option Sample × Nat :=
  let correlation := correlationAt c phase_shift_samples
  match st.1 with
  | none => (some correlation, phase_shift_samples)
  | some max_correlation =>
    if correlation > max_correlation then
      (some correlation, phase_shift_samples)
    else st

/-- The argmax loop of `Computer::delay` over
    `0..maximum_shift`. -/
def bestState (c : Computer) (maximum_shift : Nat) : Option Sample × Nat :=
  (List.range maximum_shift).foldl (bestStep c) (none, 0)

/-- `Computer::delay`: `None` while the captured window is not full;
    otherwise scan shifts `0..maximum_shift`, collect the correlations and
    the best (first maximising) shift, and report
    `maximum_shift - corresponding_phase_shift - 1`. -/
def delay (c : Computer) : Option DelayResult :=
  if !c.input.is_full then none
  else
    let maximum_shift := c.output.len - c.input.len + 1
    let corresponding_phase_shift := (bestState c maximum_shift).2
    some ⟨maximum_shift - corresponding_phase_shift - 1,
      (List.range maximum_shift).map (correlationAt c)⟩

end Computer

/-- One mutating call on a `Computer`: `output_sample` (with the random
    sample it draws made explicit) or `record_sample`. -/
inductive Call where
  | emit (sample : Sample)
  | capture (sample : Sample)
deriving Repr, DecidableEq

/-- Apply one call to a computer (panic modelled as `none`). -/
def applyCall (call : Call) (c : Computer) : Option Computer :=
  match call with
  | .emit s => (c.output_sample s).map Prod.snd
  | .capture s => c.record_sample s

/-- Apply a sequence of calls left to right (a panic aborts the run). -/
def applyCalls : List Call → Computer → Option Computer
  | [], c => some c
  | call :: calls, c => (applyCall call c).bind (applyCalls calls)

-- ### Simulator (simulator.rs)

/-- `Simulator` from simulator.rs (`signal_to_noise_ratio` abbreviated
    `snr`). -/
structure Simulator where
  delay_buffer : Option (RingBuffer Sample)
  gain : Sample
  snr : Sample
deriving Repr, DecidableEq

namespace Simulator

/-- `Simulator::new`: a delay buffer of capacity `delay_samples` when it is
    positive (`RingBuffer::new` cannot panic there), else no buffer. -/
def new (delay_samples : Nat) (gain snr : Sample) : Simulator :=
  if delay_samples > 0 then ⟨some ⟨delay_samples, []⟩, gain, snr⟩
  else ⟨none, gain, snr⟩

/-- `Simulator::tick`: the drawn `random::<f32>()` value is the explicit
    argument `rand`.  No delay buffer: the input passes through.  With a
    buffer: push the input and use the evicted element, or silence `0`
    while the buffer is filling (`unwrap_or(0.0)`).  Then apply gain and
    add `rand / snr` — the source applies no clamping to this quotient. -/
def tick (input rand : Sample) (sim : Simulator) : Option (Sample × Simulator) :=
  match sim.delay_buffer with
  | none => some (input * sim.gain + rand / sim.snr, sim)
  | some buffer =>
    (buffer.push_back input).map (fun p =>
      ((p.1.getD 0) * sim.gain + rand / sim.snr, ⟨some p.2, sim.gain, sim.snr⟩))

/-- `Simulator::delay_samples`. -/
def delay_samples (sim : Simulator) : Nat :=
  (sim.delay_buffer.map RingBuffer.capacity).getD 0

/-- `Simulator::set_delay`: the four-way match of the source. -/
def set_delay (ds : Nat) (sim : Simulator) : Option Simulator :=
  match sim.delay_buffer, ds with
  | none, 0 => some sim
  | none, d => (RingBuffer.new Sample d).map (fun b => ⟨some b, sim.gain, sim.snr⟩)
  | some _, 0 => some ⟨none, sim.gain, sim.snr⟩
  | some buffer, d => (buffer.set_capacity d).map (fun b => ⟨some b, sim.gain, sim.snr⟩)

end Simulator

/-- Run a simulator over a list of (input, random draw) pairs, collecting
    the outputs of successive `tick` calls. -/
def runSim (sim : Simulator) : List (Sample × Sample) → Option (List Sample)
  | [] => some []
  | (x, r) :: rest =>
    (sim.tick x r).bind (fun p => (runSim p.2 rest).map (fun outs => p.1 :: outs))

/-- A sequence of `push_back` calls, keeping only the final buffer. -/
def RingBuffer.pushAll {T : Type} : List T → RingBuffer T → Option (RingBuffer T)
  | [], rb => some rb
  | x :: xs, rb => (rb.push_back x).bind (fun p => pushAll xs p.2)

/-- Structural invariant of a constructed `Computer`: buffer capacities as
    fixed by `Computer::new`, lengths within capacity. -/
def Computer.Inv (m w : Nat) (c : Computer) : Prop :=
  c.output.capacity = m + w ∧ c.input.capacity = w ∧
  c.output.inner.length ≤ m + w ∧ c.input.inner.length ≤ w

/-- `Clone::clone` on `Computer` (derived): a deep, field-by-field copy of
    both ring buffers (`VecDeque` clones its elements); the clone shares no
    mutable state with the original. -/
def snapshot (c : Computer) : Computer :=
  ⟨⟨c.output.capacity, c.output.inner⟩, ⟨c.input.capacity, c.input.inner⟩⟩

/-- One producer call applied to the live instance of a (live, snapshot)
    pair; the snapshot is not touched. -/
def liveStep (call : Call) (w : Computer × Computer) :
    Option (Computer × Computer) :=
  (applyCall call w.1).map (fun live => (live, w.2))

/-- A sequence of producer calls on the live instance. -/
def liveSteps : List Call → Computer × Computer → Option (Computer × Computer)
  | [], w => some w
  | call :: calls, w => (liveStep call w).bind (liveSteps calls)

/-- The claim's per-shift score: the cross-correlation of the captured
    window with the played history offset by `s`, summed over the
    overlapping length `min(W, P − s)`. -/
def specScore (c : Computer) (s : Nat) : Sample :=
  ∑ i in Finset.range (min c.input.len (c.output.len - s)),
    c.input.inner.getD i 0 * c.output.inner.getD (s + i) 0

/-- The claim's `maxShift = max(P − W, 0) + 1`, with the subtraction over
    the integers. -/
def specMaxShift (c : Computer) : Nat :=
  (max ((c.output.len : ℤ) - (c.input.len : ℤ)) 0).toNat + 1

-- ### Theorems

-- ### Basic RingBuffer lemmas

theorem RingBuffer.shrinkFront_eq_drop {T : Type} (capacity : Nat) (l : List T) :
    shrinkFront capacity l = l.drop (l.length - capacity) := by
  induction l with
  | nil => simp [shrinkFront]
  | cons x rest ih =>
    rw [shrinkFront]
    by_cases h : capacity < (x :: rest).length
    · simp only [if_pos h, ih]
      simp only [List.length_cons] at h ⊢
      have : rest.length + 1 - capacity = (rest.length - capacity) + 1 := by omega
      rw [this, List.drop_succ_cons]
  /- length of rest drops by the list-drop arithmetic -/
    · simp only [if_neg h]
      simp only [List.length_cons, not_lt] at h
      have : rest.length + 1 - capacity = 0 := by omega
      simp [this]

theorem RingBuffer.push_back_of_lt {T : Type} (x : T) (rb : RingBuffer T)
    (h : rb.inner.length < rb.capacity) :
    rb.push_back x = some (none, ⟨rb.capacity, rb.inner ++ [x]⟩) := by
  simp [push_back, h]

theorem RingBuffer.push_back_of_full {T : Type} (x f : T) (rest : List T)
    (rb : RingBuffer T) (hinner : rb.inner = f :: rest)
    (h : ¬ rb.inner.length < rb.capacity) :
    rb.push_back x = some (some f, ⟨rb.capacity, rest ++ [x]⟩) := by
  rw [hinner] at h
  unfold push_back
  rw [hinner, if_neg h]

/-- After pushing `xs` into a buffer of positive capacity holding `l`
    (within capacity), the buffer holds the capacity-sized suffix of
    `l ++ xs`, oldest first. -/
theorem RingBuffer.pushAll_eq {T : Type} (xs : List T) (rb : RingBuffer T)
    (hcap : 0 < rb.capacity) (hlen : rb.inner.length ≤ rb.capacity) :
    rb.pushAll xs =
      some ⟨rb.capacity,
        (rb.inner ++ xs).drop ((rb.inner ++ xs).length - rb.capacity)⟩ := by
  induction xs generalizing rb with
  | nil =>
    simp only [pushAll, List.append_nil]
    have : rb.inner.length - rb.capacity = 0 := by omega
    rw [this, List.drop_zero]
  | cons x xs ih =>
    rw [pushAll]
    by_cases h : rb.inner.length < rb.capacity
    · rw [push_back_of_lt x rb h, Option.some_bind]
      rw [ih ⟨rb.capacity, rb.inner ++ [x]⟩ hcap (by simpa using h)]
      simp only [List.append_assoc, List.singleton_append]
    · have hfull : rb.inner.length = rb.capacity := by omega
      obtain ⟨f, rest, hfr⟩ : ∃ f rest, rb.inner = f :: rest := by
        cases hi : rb.inner with
        | nil => rw [hi] at hfull; simp at hfull; omega
        | cons a b => exact ⟨a, b, rfl⟩
      rw [push_back_of_full x f rest rb hfr h, Option.some_bind]
      have hrest : rest.length + 1 = rb.capacity := by
        rw [hfr] at hfull; simpa using hfull
      rw [ih ⟨rb.capacity, rest ++ [x]⟩ hcap (by simp; omega)]
      congr 1
      have harith :
          ((rest ++ [x]) ++ xs).length - rb.capacity + 1 =
            (rb.inner ++ x :: xs).length - rb.capacity := by
        rw [hfr]; simp; omega
      rw [hfr]
      simp only [List.cons_append]
      rw [show ((f :: (rest ++ x :: xs)).length - rb.capacity)
            = ((rest ++ [x]) ++ xs).length - rb.capacity + 1 by simp; omega]
      rw [List.drop_succ_cons]
      simp [List.append_assoc]

/-- C4: for every capacity `C > 0` and push sequence `xs` into a fresh
    buffer, `len ≤ C`; the buffer holds exactly the `C` most recently
    pushed values in push order (the length-`C` suffix of `xs`); after at
    least `C` pushes it is full; and a further `push_back` returns the
    current oldest element precisely when the buffer is at capacity. -/
theorem ring_buffer_fifo_push_spec (C : Nat) (hC : 0 < C) (xs : List Sample)
    (y : Sample) (rb0 rb : RingBuffer Sample)
    (h0 : RingBuffer.new Sample C = some rb0)
    (h : rb0.pushAll xs = some rb) :
    rb.len ≤ C ∧
    rb.inner = xs.drop (xs.length - C) ∧
    (C ≤ xs.length → rb.is_full = true) ∧
    (xs.length < C → rb.len = xs.length) ∧
    ∃ rb', rb.push_back y =
      some ((if rb.len = C then rb.inner.head? else none), rb') := by
  have hrb0 : rb0 = ⟨C, []⟩ := by
    simp only [RingBuffer.new, if_pos hC, Option.some_inj] at h0
    exact h0.symm
  subst hrb0
  rw [RingBuffer.pushAll_eq xs ⟨C, []⟩ hC (by simp)] at h
  simp only [List.nil_append, Option.some_inj] at h
  subst h
  have hlen : (xs.drop (xs.length - C)).length = xs.length - (xs.length - C) := by
    simp
  refine ⟨?_, rfl, ?_, ?_, ?_⟩
  · simp only [RingBuffer.len, hlen]; omega
  · intro hge
    simp only [RingBuffer.is_full, hlen]
    have : xs.length - (xs.length - C) = C := by omega
    simp [this]
  · intro hlt
    simp only [RingBuffer.len, hlen]; omega
  · by_cases hfull : xs.length - (xs.length - C) = C
    · have hne : xs.drop (xs.length - C) ≠ [] := by
        intro hnil
        rw [hnil] at hlen
        simp at hlen
        omega
      obtain ⟨f, rest, hfr⟩ := List.exists_cons_of_ne_nil hne
      refine ⟨⟨C, rest ++ [y]⟩, ?_⟩
      rw [RingBuffer.push_back_of_full y f rest _ hfr (by simp [hlen, hfull])]
      have hfc : (f :: rest).length = C := by rw [← hfr, hlen, hfull]
      simp only [RingBuffer.len, hlen, if_pos hfull, hfr, List.head?_cons,
        if_pos hfc]
    · have hlt : (xs.drop (xs.length - C)).length < C := by
        rw [hlen]; omega
      refine ⟨⟨C, xs.drop (xs.length - C) ++ [y]⟩, ?_⟩
      rw [RingBuffer.push_back_of_lt y _ hlt]
      simp only [RingBuffer.len, hlen, if_neg hfull]

/-- Closed instance of `ring_buffer_fifo_push_spec` at `C = 2`,
    `xs = [1, 2, 3]`, `y = 4`. -/
theorem ring_buffer_fifo_push_spec_witness :
    (⟨2, [2, 3]⟩ : RingBuffer Sample).len ≤ 2 ∧
    (⟨2, [2, 3]⟩ : RingBuffer Sample).inner =
      [1, 2, 3].drop ([1, 2, 3].length - 2) ∧
    (2 ≤ [(1 : Sample), 2, 3].length →
      (⟨2, [2, 3]⟩ : RingBuffer Sample).is_full = true) ∧
    ([(1 : Sample), 2, 3].length < 2 →
      (⟨2, [2, 3]⟩ : RingBuffer Sample).len = [(1 : Sample), 2, 3].length) ∧
    ∃ rb', (⟨2, [2, 3]⟩ : RingBuffer Sample).push_back 4 =
      some ((if (⟨2, [2, 3]⟩ : RingBuffer Sample).len = 2 then
        (⟨2, [2, 3]⟩ : RingBuffer Sample).inner.head? else none), rb') :=
  ring_buffer_fifo_push_spec 2 (by decide) [1, 2, 3] 4 ⟨2, []⟩ ⟨2, [2, 3]⟩
    (by decide) (by decide)

/-- C9: `RingBuffer::new(0)` panics, `RingBuffer::new(c)` succeeds for
    every positive `c` (yielding an empty buffer of that capacity), and
    `set_capacity(0)` panics on every buffer. -/
theorem ring_buffer_zero_capacity_fails (c : Nat) (hc : 0 < c)
    (rb : RingBuffer Sample) :
    RingBuffer.new Sample 0 = none ∧
    RingBuffer.new Sample c = some ⟨c, []⟩ ∧
    rb.set_capacity 0 = none := by
  refine ⟨by simp [RingBuffer.new], by simp [RingBuffer.new, hc], ?_⟩
  simp [RingBuffer.set_capacity]

/-- Closed instance of `ring_buffer_zero_capacity_fails` at `c = 1`,
    `rb = ⟨1, [5]⟩`. -/
theorem ring_buffer_zero_capacity_fails_witness :
    RingBuffer.new Sample 0 = none ∧
    RingBuffer.new Sample 1 = some ⟨1, []⟩ ∧
    (⟨1, [5]⟩ : RingBuffer Sample).set_capacity 0 = none :=
  ring_buffer_zero_capacity_fails 1 (by decide) ⟨1, [5]⟩

-- ### Preservation lemmas for push_back and the Computer invariant

theorem RingBuffer.push_back_some_inv {T : Type} (x : T) (e : Option T)
    (rb rb' : RingBuffer T) (h : rb.push_back x = some (e, rb')) :
    rb'.capacity = rb.capacity ∧
    rb'.inner.length =
      (if rb.inner.length < rb.capacity then rb.inner.length + 1
       else rb.inner.length) := by
  unfold push_back at h
  by_cases hlt : rb.inner.length < rb.capacity
  · rw [if_pos hlt] at h
    simp only [Option.some_inj, Prod.mk.injEq] at h
    rw [← h.2]
    simp [if_pos hlt]
  · rw [if_neg hlt] at h
    cases hi : rb.inner with
    | nil => rw [hi] at h; exact absurd h (by simp)
    | cons f rest =>
      rw [hi] at h hlt
      simp only [Option.some_inj, Prod.mk.injEq] at h
      rw [← h.2]
      refine ⟨rfl, ?_⟩
      rw [if_neg hlt]
      simp

theorem RingBuffer.push_back_preserves_le {T : Type} (x : T) (e : Option T)
    (rb rb' : RingBuffer T) (h : rb.push_back x = some (e, rb'))
    (hle : rb.inner.length ≤ rb.capacity) :
    rb'.inner.length ≤ rb'.capacity := by
  obtain ⟨hcap, hlen⟩ := push_back_some_inv x e rb rb' h
  rw [hcap, hlen]
  by_cases hlt : rb.inner.length < rb.capacity
  · rw [if_pos hlt]; omega
  · rw [if_neg hlt]; omega

theorem RingBuffer.push_back_preserves_full {T : Type} (x : T) (e : Option T)
    (rb rb' : RingBuffer T) (h : rb.push_back x = some (e, rb'))
    (hfull : rb.is_full = true) : rb'.is_full = true := by
  obtain ⟨hcap, hlen⟩ := push_back_some_inv x e rb rb' h
  simp only [is_full, beq_iff_eq] at hfull ⊢
  rw [hcap, hlen, hfull]
  simp

theorem Computer.new_inv (m w : Nat) (c : Computer)
    (h : Computer.new m w = some c) : Computer.Inv m w c := by
  unfold new at h
  by_cases hmw : 0 < m + w
  · by_cases hw : 0 < w
    · simp only [RingBuffer.new, if_pos hmw, if_pos hw, Option.bind_eq_bind,
        Option.some_bind, Option.some_inj, pure] at h
      rw [← h]
      exact ⟨rfl, rfl, by simp, by simp⟩
    · simp only [RingBuffer.new, if_pos hmw, if_neg hw, Option.bind_eq_bind,
        Option.some_bind] at h
      exact absurd h (by simp)
  · simp only [RingBuffer.new, if_neg hmw, Option.bind_eq_bind,
      Option.none_bind] at h
    exact absurd h (by simp)

theorem applyCall_inv (m w : Nat) (call : Call) (c c' : Computer)
    (hinv : Computer.Inv m w c) (h : applyCall call c = some c') :
    Computer.Inv m w c' := by
  obtain ⟨ho, hi, hol, hil⟩ := hinv
  cases call with
  | emit s =>
    simp only [applyCall, Computer.output_sample, Option.map_map] at h
    cases hp : c.output.push_back s with
    | none => rw [hp] at h; exact absurd h (by simp)
    | some p =>
      rw [hp] at h
      simp only [Option.map_some', Option.some_inj] at h
      obtain ⟨hcap, _⟩ := RingBuffer.push_back_some_inv s p.1 c.output p.2 (by
        rw [hp])
      have hle := RingBuffer.push_back_preserves_le s p.1 c.output p.2 (by
        rw [hp]) (ho ▸ hol)
      rw [← h]
      exact ⟨hcap.trans ho, hi, le_of_le_of_eq hle (hcap.trans ho), hil⟩
  | capture s =>
    simp only [applyCall, Computer.record_sample] at h
    cases hp : c.input.push_back s with
    | none => rw [hp] at h; exact absurd h (by simp)
    | some p =>
      rw [hp] at h
      simp only [Option.map_some', Option.some_inj] at h
      obtain ⟨hcap, _⟩ := RingBuffer.push_back_some_inv s p.1 c.input p.2 (by
        rw [hp])
      have hle := RingBuffer.push_back_preserves_le s p.1 c.input p.2 (by
        rw [hp]) (hi ▸ hil)
      rw [← h]
      exact ⟨ho, hcap.trans hi, hol, le_of_le_of_eq hle (hcap.trans hi)⟩

theorem applyCalls_inv (m w : Nat) (calls : List Call) (c c' : Computer)
    (hinv : Computer.Inv m w c) (h : applyCalls calls c = some c') :
    Computer.Inv m w c' := by
  induction calls generalizing c with
  | nil => simp only [applyCalls, Option.some_inj] at h; exact h ▸ hinv
  | cons call calls ih =>
    simp only [applyCalls] at h
    cases ha : applyCall call c with
    | none => rw [ha] at h; exact absurd h (by simp)
    | some c1 =>
      rw [ha, Option.some_bind] at h
      exact ih c1 (applyCall_inv m w call c c1 hinv ha) h

theorem applyCall_preserves_input_full (call : Call) (c c' : Computer)
    (h : applyCall call c = some c') (hfull : c.input.is_full = true) :
    c'.input.is_full = true := by
  cases call with
  | emit s =>
    simp only [applyCall, Computer.output_sample, Option.map_map] at h
    cases hp : c.output.push_back s with
    | none => rw [hp] at h; exact absurd h (by simp)
    | some p =>
      rw [hp] at h
      simp only [Option.map_some', Option.some_inj] at h
      rw [← h]
      exact hfull
  | capture s =>
    simp only [applyCall, Computer.record_sample] at h
    cases hp : c.input.push_back s with
    | none => rw [hp] at h; exact absurd h (by simp)
    | some p =>
      rw [hp] at h
      simp only [Option.map_some', Option.some_inj] at h
      rw [← h]
      exact RingBuffer.push_back_preserves_full s p.1 c.input p.2 (by rw [hp])
        hfull

theorem applyCalls_preserves_input_full (calls : List Call) (c c' : Computer)
    (h : applyCalls calls c = some c') (hfull : c.input.is_full = true) :
    c'.input.is_full = true := by
  induction calls generalizing c with
  | nil => simp only [applyCalls, Option.some_inj] at h; exact h ▸ hfull
  | cons call calls ih =>
    simp only [applyCalls] at h
    cases ha : applyCall call c with
    | none => rw [ha] at h; exact absurd h (by simp)
    | some c1 =>
      rw [ha, Option.some_bind] at h
      exact ih c1 h (applyCall_preserves_input_full call c c1 ha hfull)

/-- C3: `delay()` returns `None` exactly when the captured window is not
    yet full, and fullness of the captured window is permanent: after any
    further sequence of `output_sample`/`record_sample` calls the window is
    still full and `delay()` still returns an estimate. -/
theorem delay_none_iff_window_not_full (c c' : Computer) (calls : List Call)
    (h : applyCalls calls c = some c') :
    (c.delay = none ↔ c.input.is_full = false) ∧
    (c.input.is_full = true → c'.input.is_full = true) ∧
    (c.input.is_full = true → ∃ r, c'.delay = some r) := by
  refine ⟨?_, ?_, ?_⟩
  · unfold Computer.delay
    cases hfull : c.input.is_full with
    | false => simp
    | true => simp
  · exact applyCalls_preserves_input_full calls c c' h
  · intro hfull
    have hfull' := applyCalls_preserves_input_full calls c c' h hfull
    unfold Computer.delay
    rw [hfull']
    simp

/-- Closed instance of `delay_none_iff_window_not_full`. -/
theorem delay_none_iff_window_not_full_witness :
    ((⟨⟨2, []⟩, ⟨1, [3]⟩⟩ : Computer).delay = none ↔
      (⟨⟨2, []⟩, ⟨1, [3]⟩⟩ : Computer).input.is_full = false) ∧
    ((⟨⟨2, []⟩, ⟨1, [3]⟩⟩ : Computer).input.is_full = true →
      (⟨⟨2, [5]⟩, ⟨1, [3]⟩⟩ : Computer).input.is_full = true) ∧
    ((⟨⟨2, []⟩, ⟨1, [3]⟩⟩ : Computer).input.is_full = true →
      ∃ r, (⟨⟨2, [5]⟩, ⟨1, [3]⟩⟩ : Computer).delay = some r) :=
  delay_none_iff_window_not_full ⟨⟨2, []⟩, ⟨1, [3]⟩⟩ ⟨⟨2, [5]⟩, ⟨1, [3]⟩⟩
    [.emit 5] (by decide)

-- ### The argmax loop computes the first maximising shift

theorem Computer.bestState_succ (c : Computer) (n : Nat) :
    bestState c (n + 1) = bestStep c (bestState c n) n := by
  unfold bestState
  rw [List.range_succ, List.foldl_append, List.foldl_cons, List.foldl_nil]

theorem Computer.bestState_spec (c : Computer) (n : Nat) (hn : 0 < n) :
    ∃ b, bestState c n = (some (correlationAt c b), b) ∧ b < n ∧
      (∀ s, s < n → correlationAt c s ≤ correlationAt c b) ∧
      (∀ s, s < b → correlationAt c s < correlationAt c b) := by
  revert hn
  induction n with
  | zero => omega
  | succ k ih =>
    intro _
    cases Nat.eq_zero_or_pos k with
    | inl hk =>
      subst hk
      refine ⟨0, ?_, by omega, ?_, ?_⟩
      · simp [bestState, bestStep, List.range_succ]
      · intro s hs
        have : s = 0 := by omega
        subst this
        exact le_refl _
      · intro s hs
        exact absurd hs (Nat.not_lt_zero s)
    | inr hk =>
      obtain ⟨b, hb, hblt, hmax, hfirst⟩ := ih hk
      rw [bestState_succ, hb]
      by_cases hgt : correlationAt c k > correlationAt c b
      · refine ⟨k, ?_, by omega, ?_, ?_⟩
        · simp [bestStep, if_pos hgt]
        · intro s hs
          rcases Nat.lt_succ_iff_lt_or_eq.mp hs with hlt | heq
          · exact lt_of_le_of_lt (hmax s hlt) hgt |>.le
          · subst heq; exact le_refl _
        · intro s hs
          exact lt_of_le_of_lt (hmax s hs) hgt
      · refine ⟨b, ?_, by omega, ?_, hfirst⟩
        · simp [bestStep, if_neg hgt]
        · intro s hs
          rcases Nat.lt_succ_iff_lt_or_eq.mp hs with hlt | heq
          · exact hmax s hlt
          · subst heq; exact le_of_not_lt hgt

/-- C2: every estimate returned by `delay()` on a computer constructed with
    `(m, w)` and driven by any call sequence lies in `[0, m]`, and the
    chosen shift is strictly below `maximum_shift`, so the subtraction
    `maximum_shift - corresponding_phase_shift - 1` never underflows. -/
theorem delay_samples_bounded (m w : Nat) (calls : List Call)
    (c0 c : Computer) (r : DelayResult) (h0 : Computer.new m w = some c0)
    (h : applyCalls calls c0 = some c) (hr : c.delay = some r) :
    r.delay_samples ≤ m ∧
    (Computer.bestState c (c.output.len - c.input.len + 1)).2 <
      c.output.len - c.input.len + 1 := by
  obtain ⟨ho, hi, hol, hil⟩ := applyCalls_inv m w calls c0 c
    (Computer.new_inv m w c0 h0) h
  unfold Computer.delay at hr
  cases hfull : c.input.is_full with
  | false => rw [hfull] at hr; exact absurd hr (by simp)
  | true =>
    rw [hfull] at hr
    simp only [Bool.not_true, Bool.false_eq_true, if_false, Option.some_inj] at hr
    have hin : c.input.inner.length = w := by
      simp only [RingBuffer.is_full, beq_iff_eq] at hfull
      rw [hfull, hi]
    obtain ⟨b, hb, hblt, -, -⟩ :=
      Computer.bestState_spec c (c.output.len - c.input.len + 1) (by omega)
    constructor
    · rw [← hr]
      simp only [RingBuffer.len]
      rw [hin]
      omega
    · rw [hb]
      exact hblt

/-- Closed instance of `delay_samples_bounded` at `m = 1`, `w = 1`,
    calls `[emit 2, capture 3]`. -/
theorem delay_samples_bounded_witness :
    (DelayResult.mk 0 [6]).delay_samples ≤ 1 ∧
    (Computer.bestState ⟨⟨2, [2]⟩, ⟨1, [3]⟩⟩
        ((⟨⟨2, [2]⟩, ⟨1, [3]⟩⟩ : Computer).output.len -
          (⟨⟨2, [2]⟩, ⟨1, [3]⟩⟩ : Computer).input.len + 1)).2 <
      (⟨⟨2, [2]⟩, ⟨1, [3]⟩⟩ : Computer).output.len -
        (⟨⟨2, [2]⟩, ⟨1, [3]⟩⟩ : Computer).input.len + 1 :=
  delay_samples_bounded 1 1 [.emit 2, .capture 3] ⟨⟨2, []⟩, ⟨1, []⟩⟩
    ⟨⟨2, [2]⟩, ⟨1, [3]⟩⟩ ⟨0, [6]⟩ (by decide) (by decide)
    (by simp [Computer.delay, Computer.bestState, Computer.bestStep,
      Computer.correlationAt, RingBuffer.is_full, RingBuffer.len,
      List.range_succ]; norm_num)

/-- C10: `Computer::new(m, w)` panics exactly when the comparison window
    width `w` is zero (the played-history capacity `m + w` is then the only
    other candidate, and it is zero only if `w` is); for every `w > 0` it
    succeeds, even with `m = 0`. -/
theorem computer_new_fails_iff_zero_window (m w : Nat) (hw : 0 < w) :
    (∀ m', Computer.new m' 0 = none) ∧
    Computer.new m w = some ⟨⟨m + w, []⟩, ⟨w, []⟩⟩ := by
  constructor
  · intro m'
    unfold Computer.new
    by_cases hm : 0 < m'
    · simp [RingBuffer.new, hm]
    · simp [RingBuffer.new, hm, Nat.eq_zero_of_not_pos hm]
  · unfold Computer.new
    have h1 : 0 < m + w := by omega
    simp only [RingBuffer.new, if_pos h1, if_pos hw, Option.bind_eq_bind,
      Option.some_bind]
    rfl

/-- Closed instance of `computer_new_fails_iff_zero_window` at
    `m = 0`, `w = 1`. -/
theorem computer_new_fails_iff_zero_window_witness :
    (∀ m', Computer.new m' 0 = none) ∧
    Computer.new 0 1 = some ⟨⟨0 + 1, []⟩, ⟨1, []⟩⟩ :=
  computer_new_fails_iff_zero_window 0 1 (by decide)

-- ### Snapshot isolation for the delay query

theorem liveSteps_preserves_snd (calls : List Call) (w w' : Computer × Computer)
    (h : liveSteps calls w = some w') : w'.2 = w.2 := by
  induction calls generalizing w with
  | nil => simp only [liveSteps, Option.some_inj] at h; rw [← h]
  | cons call calls ih =>
    simp only [liveSteps, liveStep] at h
    cases ha : applyCall call w.1 with
    | none => rw [ha] at h; exact absurd h (by simp)
    | some live =>
      rw [ha] at h
      simp only [Option.map_some', Option.some_bind] at h
      exact ih (live, w.2) h

/-- C8: `Computer::delay` takes `&self` and is embedded as a pure function
    of the estimator state, so repeated queries of an unmutated estimator
    coincide; moreover a snapshot (clone) taken at time T is untouched by
    any later sequence of producer calls on the live instance, and querying
    it yields exactly the estimate of the original at time T. -/
theorem delay_snapshot_isolation (c : Computer) (calls : List Call)
    (w' : Computer × Computer)
    (h : liveSteps calls (c, snapshot c) = some w') :
    w'.2 = snapshot c ∧ w'.2.delay = c.delay := by
  have hsnd := liveSteps_preserves_snd calls (c, snapshot c) w' h
  refine ⟨hsnd, ?_⟩
  rw [hsnd]
  rfl

/-- Closed instance of `delay_snapshot_isolation`: the live instance
    records two further samples; the snapshot's query is unchanged. -/
theorem delay_snapshot_isolation_witness :
    ((⟨⟨2, [4]⟩, ⟨1, [3]⟩⟩, snapshot ⟨⟨2, [4]⟩, ⟨1, [3]⟩⟩) :
        Computer × Computer).2 = snapshot ⟨⟨2, [4]⟩, ⟨1, [3]⟩⟩ ∧
    ((⟨⟨2, [4]⟩, ⟨1, [3]⟩⟩, snapshot ⟨⟨2, [4]⟩, ⟨1, [3]⟩⟩) :
        Computer × Computer).2.delay = (⟨⟨2, [4]⟩, ⟨1, [3]⟩⟩ : Computer).delay := by
  have h := delay_snapshot_isolation ⟨⟨2, [4]⟩, ⟨1, [3]⟩⟩ [.capture 7, .emit 9]
    (⟨⟨2, [4, 9]⟩, ⟨1, [7]⟩⟩, snapshot ⟨⟨2, [4]⟩, ⟨1, [3]⟩⟩) (by decide)
  exact ⟨rfl, by rw [← h.2]⟩

-- ### The correlation fold as an indexed cross-correlation sum

theorem foldl_add_mul_acc (l : List (Sample × Sample)) (a : Sample) :
    l.foldl (fun acc p => acc + p.1 * p.2) a =
      a + l.foldl (fun acc p => acc + p.1 * p.2) 0 := by
  induction l generalizing a with
  | nil => simp
  | cons x xs ih =>
    simp only [List.foldl_cons]
    rw [ih (a + x.1 * x.2), ih (0 + x.1 * x.2)]
    ring

theorem zip_foldl_eq_sum (a b : List Sample) :
    (a.zip b).foldl (fun acc p => acc + p.1 * p.2) 0 =
      ∑ i in Finset.range (min a.length b.length), a.getD i 0 * b.getD i 0 := by
  induction a generalizing b with
  | nil => simp
  | cons x xs ih =>
    cases b with
    | nil => simp
    | cons y ys =>
      simp only [List.zip_cons_cons, List.foldl_cons, List.length_cons]
      rw [foldl_add_mul_acc, ih ys]
      rw [show min (xs.length + 1) (ys.length + 1) = min xs.length ys.length + 1
        by omega]
      rw [Finset.sum_range_succ']
      have hsum : ∑ i in Finset.range (min xs.length ys.length),
          (x :: xs).getD (i + 1) 0 * (y :: ys).getD (i + 1) 0 =
          ∑ i in Finset.range (min xs.length ys.length),
            xs.getD i 0 * ys.getD i 0 := Finset.sum_congr rfl (fun i _ => rfl)
      rw [hsum]
      rw [show ((x :: xs).getD 0 0) = x from rfl,
        show ((y :: ys).getD 0 0) = y from rfl]
      ring

theorem specMaxShift_eq (c : Computer) :
    specMaxShift c = c.output.len - c.input.len + 1 := by
  unfold specMaxShift RingBuffer.len
  omega

theorem Computer.correlationAt_eq_specScore (c : Computer) (s : Nat) :
    correlationAt c s = specScore c s := by
  unfold correlationAt specScore RingBuffer.len
  rw [zip_foldl_eq_sum, List.length_drop, Nat.min_comm]
  apply Finset.sum_congr rfl
  intro i _
  rw [mul_comm]
  congr 1
  show ((c.output.inner.drop s).get? i).getD 0 =
    (c.output.inner.get? (s + i)).getD 0
  rw [List.get?_drop]

/-- C1: once the captured window is full, `delay()` returns an estimate:
    with `maxShift = max(P − W, 0) + 1`, the result is
    `maxShift − best − 1` where `best` is the smallest shift in
    `[0, maxShift)` maximising the cross-correlation score
    `∑ i < min(W, P−s), input[i] · output[s+i]` (shifts scanned in
    increasing order with strict comparison), alongside the per-shift
    score sequence. -/
theorem delay_first_argmax_cross_correlation (c : Computer)
    (hfull : c.input.is_full = true) :
    ∃ best, best < specMaxShift c ∧
      c.delay = some ⟨specMaxShift c - best - 1,
        (List.range (specMaxShift c)).map (specScore c)⟩ ∧
      (∀ s, s < specMaxShift c → specScore c s ≤ specScore c best) ∧
      (∀ s, s < best → specScore c s < specScore c best) := by
  have hcs : Computer.correlationAt c = specScore c :=
    funext (Computer.correlationAt_eq_specScore c)
  have hms := specMaxShift_eq c
  obtain ⟨b, hb, hblt, hmax, hfirst⟩ :=
    Computer.bestState_spec c (c.output.len - c.input.len + 1) (by omega)
  refine ⟨b, by omega, ?_, ?_, ?_⟩
  · unfold Computer.delay
    rw [hfull]
    simp only [Bool.not_true, Bool.false_eq_true, if_false]
    rw [hms, hb, hcs]
  · intro s hs
    rw [hms] at hs
    have h := hmax s hs
    rw [hcs] at h
    exact h
  · intro s hs
    have h := hfirst s hs
    rw [hcs] at h
    exact h

/-- Closed instance of `delay_first_argmax_cross_correlation` with a
    two-sample played history and a one-sample captured window. -/
theorem delay_first_argmax_cross_correlation_witness :
    ∃ best, best < specMaxShift ⟨⟨3, [1, 2]⟩, ⟨1, [3]⟩⟩ ∧
      (⟨⟨3, [1, 2]⟩, ⟨1, [3]⟩⟩ : Computer).delay =
        some ⟨specMaxShift ⟨⟨3, [1, 2]⟩, ⟨1, [3]⟩⟩ - best - 1,
          (List.range (specMaxShift ⟨⟨3, [1, 2]⟩, ⟨1, [3]⟩⟩)).map
            (specScore ⟨⟨3, [1, 2]⟩, ⟨1, [3]⟩⟩)⟩ ∧
      (∀ s, s < specMaxShift ⟨⟨3, [1, 2]⟩, ⟨1, [3]⟩⟩ →
        specScore ⟨⟨3, [1, 2]⟩, ⟨1, [3]⟩⟩ s ≤
          specScore ⟨⟨3, [1, 2]⟩, ⟨1, [3]⟩⟩ best) ∧
      (∀ s, s < best →
        specScore ⟨⟨3, [1, 2]⟩, ⟨1, [3]⟩⟩ s <
          specScore ⟨⟨3, [1, 2]⟩, ⟨1, [3]⟩⟩ best) :=
  delay_first_argmax_cross_correlation ⟨⟨3, [1, 2]⟩, ⟨1, [3]⟩⟩ (by decide)


-- ### Simulator: delay line, gain and noise

theorem getD_map_fst (l : List (Sample × Sample)) (i : Nat) :
    (l.map Prod.fst).getD i 0 = (l.getD i (0, 0)).1 := by
  show ((l.map Prod.fst).get? i).getD 0 = ((l.get? i).getD (0, 0)).1
  rw [List.get?_map]
  cases l.get? i with
  | none => rfl
  | some p => rfl

theorem getD_append_left {T : Type} (l l' : List T) (n : Nat) (d : T)
    (h : n < l.length) : (l ++ l').getD n d = l.getD n d := by
  show ((l ++ l').get? n).getD d = (l.get? n).getD d
  rw [List.get?_append h]

theorem getD_map_out (l : List (Sample × Sample)) (i : Nat)
    (f : Sample × Sample → Sample) (hf : f (0, 0) = 0) :
    (l.map f).getD i 0 = f (l.getD i (0, 0)) := by
  show ((l.map f).get? i).getD 0 = f ((l.get? i).getD (0, 0))
  rw [List.get?_map]
  cases l.get? i with
  | none => exact hf.symm
  | some p => rfl

/-- With no delay buffer, every tick passes its input straight through,
    scaled by gain, plus the noise term. -/
theorem runSim_passthrough (g snr : Sample) (pairs : List (Sample × Sample)) :
    runSim ⟨none, g, snr⟩ pairs =
      some (pairs.map (fun p => p.1 * g + p.2 / snr)) := by
  induction pairs with
  | nil => rfl
  | cons p rest ih =>
    obtain ⟨x, r⟩ := p
    simp only [runSim, Simulator.tick, Option.some_bind, ih, Option.map_some',
      List.map_cons]

/-- Running the simulator whose delay buffer of capacity `d` holds the
    newest `min(|hist|, d)` samples of the already-pushed history `hist`:
    tick `i` outputs the sample pushed `d` ticks before it (counting from
    the start of `hist`), or silence while the buffer is still filling,
    scaled by gain, plus the noise term. -/
theorem runSim_delay_line (d : Nat) (hd : 0 < d) (g snr : Sample)
    (hist : List Sample) (pairs : List (Sample × Sample)) :
    ∃ outs,
      runSim ⟨some ⟨d, hist.drop (hist.length - d)⟩, g, snr⟩ pairs =
        some outs ∧
      outs.length = pairs.length ∧
      ∀ i, i < pairs.length →
        outs.getD i 0 =
          (if hist.length + i < d then 0
           else (hist ++ pairs.map Prod.fst).getD (hist.length + i - d) 0) * g
            + (pairs.getD i (0, 0)).2 / snr := by
  induction pairs generalizing hist with
  | nil => exact ⟨[], rfl, rfl, fun i hi => absurd hi (Nat.not_lt_zero i)⟩
  | cons p rest ih =>
    obtain ⟨x, r⟩ := p
    by_cases hlt : hist.length < d
    · -- buffer still filling: silence is substituted for the evicted sample
      have hdrop : hist.drop (hist.length - d) = hist := by
        rw [show hist.length - d = 0 by omega, List.drop_zero]
      have hpush : (⟨d, hist.drop (hist.length - d)⟩ :
          RingBuffer Sample).push_back x =
          some (none, ⟨d, hist ++ [x]⟩) := by
        rw [RingBuffer.push_back_of_lt x _ (by rw [hdrop]; exact hlt), hdrop]
      have hdrop' : (hist ++ [x]).drop ((hist ++ [x]).length - d) =
          hist ++ [x] := by
        rw [show (hist ++ [x]).length - d = 0 by
          simp only [List.length_append, List.length_cons, List.length_nil]
          omega]
        rw [List.drop_zero]
      obtain ⟨outs, houts, hlen, hidx⟩ := ih (hist ++ [x])
      refine ⟨(0 * g + r / snr) :: outs, ?_, by simpa using hlen, ?_⟩
      · simp only [runSim, Simulator.tick, hpush, Option.map_some',
          Option.some_bind, Option.getD_none]
        rw [hdrop'] at houts
        rw [houts]
        rfl
      · intro i hi
        cases i with
        | zero =>
          simp only [List.getD_cons_zero]
          rw [if_pos (show hist.length + 0 < d by omega)]
        | succ j =>
          have hj : j < rest.length := by simpa using hi
          simp only [List.getD_cons_succ]
          rw [hidx j hj]
          simp only [List.map_cons, List.length_append, List.length_cons,
            List.length_nil, List.append_assoc, List.singleton_append]
          rw [show hist.length + 1 + j = hist.length + (j + 1) by omega]
    · -- buffer full: each tick evicts and emits the oldest buffered sample
      have hge : d ≤ hist.length := Nat.le_of_not_lt hlt
      have hlen1 : (hist.drop (hist.length - d)).length = d := by
        rw [List.length_drop]; omega
      have hne : hist.drop (hist.length - d) ≠ [] := by
        intro hnil
        rw [hnil] at hlen1
        simp only [List.length_nil] at hlen1
        omega
      obtain ⟨f, t, hft⟩ := List.exists_cons_of_ne_nil hne
      have hpush : (⟨d, hist.drop (hist.length - d)⟩ :
          RingBuffer Sample).push_back x =
          some (some f, ⟨d, t ++ [x]⟩) :=
        RingBuffer.push_back_of_full x f t _ hft
          (by show ¬ (hist.drop (hist.length - d)).length < d; omega)
      have hf : f = hist.getD (hist.length - d) 0 := by
        have h0 : (hist.drop (hist.length - d)).get? 0 =
            hist.get? (hist.length - d + 0) := List.get?_drop _ _ _
        rw [hft, List.get?_cons_zero, Nat.add_zero] at h0
        show f = (hist.get? (hist.length - d)).getD 0
        rw [← h0]
        rfl
      have ht : t = hist.drop (hist.length - d + 1) := by
        have h1 : (hist.drop (hist.length - d)).drop 1 = t := by
          rw [hft]
          rfl
        rw [← h1, List.drop_drop]
        try congr 1
        try omega
      have htx : t ++ [x] = (hist ++ [x]).drop ((hist ++ [x]).length - d) := by
        rw [ht, show (hist ++ [x]).length - d = hist.length - d + 1 by
          simp only [List.length_append, List.length_cons, List.length_nil]
          omega]
        rw [List.drop_append_of_le_length (by omega)]
      obtain ⟨outs, houts, hlen, hidx⟩ := ih (hist ++ [x])
      refine ⟨(f * g + r / snr) :: outs, ?_, by simpa using hlen, ?_⟩
      · simp only [runSim, Simulator.tick, hpush, Option.map_some',
          Option.some_bind, Option.getD_some]
        rw [← htx] at houts
        rw [houts]
        rfl
      · intro i hi
        cases i with
        | zero =>
          simp only [List.getD_cons_zero, List.map_cons]
          rw [hf, if_neg (show ¬ hist.length + 0 < d by omega), Nat.add_zero]
          rw [getD_append_left hist (x :: rest.map Prod.fst)
            (hist.length - d) 0 (by omega)]
        | succ j =>
          have hj : j < rest.length := by simpa using hi
          simp only [List.getD_cons_succ]
          rw [hidx j hj]
          simp only [List.map_cons, List.length_append, List.length_cons,
            List.length_nil, List.append_assoc, List.singleton_append]
          rw [show hist.length + 1 + j = hist.length + (j + 1) by omega]

/-- C6: `Simulator::tick` semantics over any run from a fresh simulator:
    with delay 0 each tick returns `input · gain + rand / snr` with no lag;
    with delay `d > 0` the first `d` ticks return `0 · gain + rand / snr`
    (silence during warm-up) and tick `i ≥ d` returns
    `input(i − d) · gain + rand(i) / snr`. -/
theorem simulator_tick_delay_gain_noise (d : Nat) (g snr : Sample)
    (pairs : List (Sample × Sample)) :
    ∃ outs, runSim (Simulator.new d g snr) pairs = some outs ∧
      outs.length = pairs.length ∧
      ∀ i, i < pairs.length →
        outs.getD i 0 =
          (if i < d then 0 else (pairs.getD (i - d) (0, 0)).1) * g +
            (pairs.getD i (0, 0)).2 / snr := by
  cases d with
  | zero =>
    refine ⟨pairs.map (fun p => p.1 * g + p.2 / snr), ?_, by simp, ?_⟩
    · exact runSim_passthrough g snr pairs
    · intro i hi
      rw [getD_map_out pairs i _ (by norm_num)]
      rw [if_neg (Nat.not_lt_zero i), Nat.sub_zero]
  | succ k =>
    obtain ⟨outs, houts, hlen, hidx⟩ :=
      runSim_delay_line (k + 1) (Nat.succ_pos k) g snr [] pairs
    rw [List.drop_nil] at houts
    refine ⟨outs, ?_, hlen, ?_⟩
    · unfold Simulator.new
      rw [if_pos (Nat.succ_pos k)]
      exact houts
    · intro i hi
      have h := hidx i hi
      simp only [List.length_nil, Nat.zero_add, List.nil_append] at h
      rw [getD_map_fst] at h
      exact h

/-- C5: `set_capacity` keeps the capacity-sized suffix: growing to at
    least the current length preserves all elements in order, shrinking
    evicts oldest elements until the length fits.  Consequently
    `Simulator::set_delay(d2)` on a simulator whose buffer has capacity
    `d1 > d2 > 0` discards at most `d1 − d2` oldest samples, and once the
    buffer was full the next tick already returns the sample pushed `d2`
    ticks earlier. -/
theorem set_capacity_and_set_delay_shrink
    (rb : RingBuffer Sample) (c2 : Nat) (hc2 : 0 < c2)
    (sim : Simulator) (b : RingBuffer Sample) (d1 d2 : Nat)
    (hbuf : sim.delay_buffer = some b) (hcap : b.capacity = d1)
    (hlen : b.inner.length ≤ d1) (hd2 : 0 < d2) (hd21 : d2 < d1) :
    rb.set_capacity c2 =
      some ⟨c2, rb.inner.drop (rb.inner.length - c2)⟩ ∧
    (rb.inner.length ≤ c2 → rb.set_capacity c2 = some ⟨c2, rb.inner⟩) ∧
    ∃ sim', sim.set_delay d2 = some sim' ∧
      sim'.delay_buffer =
        some ⟨d2, b.inner.drop (b.inner.length - d2)⟩ ∧
      sim'.gain = sim.gain ∧ sim'.snr = sim.snr ∧
      sim'.delay_samples = d2 ∧
      b.inner.length - (b.inner.drop (b.inner.length - d2)).length ≤
        d1 - d2 ∧
      (b.inner.length = d1 → ∀ x r, ∃ out sim'',
        sim'.tick x r = some (out, sim'') ∧
        out = b.inner.getD (d1 - d2) 0 * sim.gain + r / sim.snr) := by
  have hsetc : ∀ (q : RingBuffer Sample) (n : Nat), 0 < n →
      q.set_capacity n = some ⟨n, q.inner.drop (q.inner.length - n)⟩ := by
    intro q n hn
    unfold RingBuffer.set_capacity
    rw [if_pos hn, RingBuffer.shrinkFront_eq_drop]
  refine ⟨hsetc rb c2 hc2, ?_, ?_⟩
  · intro hle
    rw [hsetc rb c2 hc2, show rb.inner.length - c2 = 0 by omega,
      List.drop_zero]
  · obtain ⟨db, gg, ss⟩ := sim
    have hdb : db = some b := hbuf
    subst hdb
    have hset : Simulator.set_delay d2 ⟨some b, gg, ss⟩ =
        some ⟨some ⟨d2, b.inner.drop (b.inner.length - d2)⟩, gg, ss⟩ := by
      cases d2 with
      | zero => omega
      | succ k =>
        show (b.set_capacity (k + 1)).map
            (fun bb => Simulator.mk (some bb) gg ss) = _
        rw [hsetc b (k + 1) (Nat.succ_pos k), Option.map_some']
    refine ⟨⟨some ⟨d2, b.inner.drop (b.inner.length - d2)⟩, gg, ss⟩,
      hset, rfl, rfl, rfl, rfl, ?_, ?_⟩
    · rw [List.length_drop]
      omega
    · intro hfull x r
      have hdlen : (b.inner.drop (b.inner.length - d2)).length = d2 := by
        rw [List.length_drop]
        omega
      have hne : b.inner.drop (b.inner.length - d2) ≠ [] := by
        intro hnil
        rw [hnil] at hdlen
        simp only [List.length_nil] at hdlen
        omega
      obtain ⟨f, t, hft⟩ := List.exists_cons_of_ne_nil hne
      have hf : f = b.inner.getD (d1 - d2) 0 := by
        have h0 : (b.inner.drop (b.inner.length - d2)).get? 0 =
            b.inner.get? (b.inner.length - d2 + 0) := List.get?_drop _ _ _
        rw [hft, List.get?_cons_zero, Nat.add_zero, hfull] at h0
        show f = (b.inner.get? (d1 - d2)).getD 0
        rw [← h0]
        rfl
      refine ⟨f * gg + r / ss, ⟨some ⟨d2, t ++ [x]⟩, gg, ss⟩, ?_, ?_⟩
      · show ((⟨d2, b.inner.drop (b.inner.length - d2)⟩ :
            RingBuffer Sample).push_back x).map
            (fun p => ((p.1.getD 0) * gg + r / ss,
              Simulator.mk (some p.2) gg ss)) = _
        rw [RingBuffer.push_back_of_full x f t _ hft
          (by show ¬ (b.inner.drop (b.inner.length - d2)).length < d2; omega)]
        rw [Option.map_some']
        try rfl
      · rw [hf]

/-- Closed instance of `set_capacity_and_set_delay_shrink`: shrinking a
    full three-sample buffer to capacity 2. -/
theorem set_capacity_and_set_delay_shrink_witness :
    (⟨3, [1, 2, 3]⟩ : RingBuffer Sample).set_capacity 2 =
      some ⟨2, [(1 : Sample), 2, 3].drop ([(1 : Sample), 2, 3].length - 2)⟩ ∧
    ([(1 : Sample), 2, 3].length ≤ 2 →
      (⟨3, [1, 2, 3]⟩ : RingBuffer Sample).set_capacity 2 =
        some ⟨2, [(1 : Sample), 2, 3]⟩) ∧
    ∃ sim', (⟨some ⟨3, [1, 2, 3]⟩, 1, 1⟩ : Simulator).set_delay 2 =
        some sim' ∧
      sim'.delay_buffer =
        some ⟨2, [(1 : Sample), 2, 3].drop ([(1 : Sample), 2, 3].length - 2)⟩ ∧
      sim'.gain = (⟨some ⟨3, [1, 2, 3]⟩, 1, 1⟩ : Simulator).gain ∧
      sim'.snr = (⟨some ⟨3, [1, 2, 3]⟩, 1, 1⟩ : Simulator).snr ∧
      sim'.delay_samples = 2 ∧
      [(1 : Sample), 2, 3].length -
        ([(1 : Sample), 2, 3].drop ([(1 : Sample), 2, 3].length - 2)).length ≤
        3 - 2 ∧
      ([(1 : Sample), 2, 3].length = 3 → ∀ x r, ∃ out sim'',
        sim'.tick x r = some (out, sim'') ∧
        out = [(1 : Sample), 2, 3].getD (3 - 2) 0 *
            (⟨some ⟨3, [1, 2, 3]⟩, 1, 1⟩ : Simulator).gain +
          r / (⟨some ⟨3, [1, 2, 3]⟩, 1, 1⟩ : Simulator).snr) :=
  set_capacity_and_set_delay_shrink ⟨3, [1, 2, 3]⟩ 2 (by decide)
    ⟨some ⟨3, [1, 2, 3]⟩, 1, 1⟩ ⟨3, [1, 2, 3]⟩ 3 2 (by decide) (by decide)
    (by decide) (by decide) (by decide)

/-- C7 is refuted by the source: `Simulator::tick` computes the noise term
    as `random / signal_to_noise_ratio` with no clamping or saturation
    (simulator.rs line 41), so over the admissible settings the returned
    sample exceeds every bound: for any bound there is a positive SNR and
    a random draw in `[0, 1)` whose tick output is larger.  (At SNR
    exactly 0, Rust f32 division returns infinity.) -/
theorem simulator_noise_unbounded (bound : Sample) :
    ∃ snr rand out sim', 0 < snr ∧ 0 ≤ rand ∧ rand < 1 ∧
      (Simulator.new 0 1 snr).tick 0 rand = some (out, sim') ∧
      bound < out := by
  have hBpos : (0 : Sample) < |bound| + 1 := by positivity
  refine ⟨1 / (2 * (|bound| + 1)), 1 / 2,
    0 * 1 + (1 / 2) / (1 / (2 * (|bound| + 1))),
    ⟨none, 1, 1 / (2 * (|bound| + 1))⟩, by positivity, by norm_num,
    by norm_num, rfl, ?_⟩
  have hout : (0 : Sample) * 1 + (1 / 2) / (1 / (2 * (|bound| + 1))) =
      |bound| + 1 := by
    have hBne : |bound| + 1 ≠ 0 := ne_of_gt hBpos
    rw [zero_mul, zero_add]
    field_simp
  rw [hout]
  have := le_abs_self bound
  linarith
